import Mathlib

set_option maxRecDepth 20000

/-!
# Argus FLS intelligence analyzer — verification of the core valuation pipeline

Shallow embedding of `fls_intel_analyzer.py` (the core stages 2–4 of the
analyzer: assumption-set construction, attack detection and the fuzzy
fixed-point valuation engine) together with proofs of the specified
properties.

Modelling conventions:
* Python floats are modelled as exact rationals (`ℚ`); every numeric literal
  occurring in the program (`1.0`, `0.5`, `1e-6`) is exactly representable.
* A Python `dict` (which preserves insertion order) is modelled as an
  association list `List (String × _)`; lookup takes the first matching key
  and update rewrites the entries holding the key in place.
* The `while changed` loop of `fls_algorithm` has no bound in the source; it
  is modelled with explicit fuel `flsFuel` and we prove (see the termination
  theorems below) that under the boundedness invariants the loop reaches its
  exit condition strictly within that fuel, so the model computes exactly
  what the Python loop computes.
* Stage 1 (`extract_assertions`, a spaCy NLP pipeline) is an external
  collaborator per the specification; the core consumes an already extracted
  list of assertions.
-/

namespace Argus

attribute [local semireducible] Rat.sub Rat.add Rat.mul

/-- A claim extracted from text: subject–verb–object plus negation flag.
Mirrors the dictionaries produced by `extract_assertions`. -/
structure Assertion where
  subject : String
  verb : String
  obj : Option String
  negated : Bool
deriving DecidableEq

/-- One entry of the assumption mapping: the claim, its initial weight, and
the `final` valuation which is absent until `fls_algorithm` sets it
(a Python dict acquires the `"final"` key only inside `fls_algorithm`). -/
structure AssumptionRecord where
  assertion : Assertion
  weight : ℚ
  final : Option ℚ
deriving DecidableEq

/-- A directed attack edge `{"from": src, "to": dst, "strength": s}`. -/
structure Attack where
  src : String
  dst : String
  strength : ℚ
deriving DecidableEq

/-- The bundle returned by `analyze_text`. -/
structure AnalysisResult where
  assertions : List Assertion
  A_init : List (String × AssumptionRecord)
  attacks : List Attack
  A_final : List (String × AssumptionRecord)
deriving DecidableEq

/-- Helper for `compute_A_init`: the Python `for idx, assertion in
enumerate(assertions)` loop, carrying the running index. -/
def computeAInitFrom (idx : Nat) : List Assertion → List (String × AssumptionRecord)
  | [] => []
  | a :: rest =>
      ("A" ++ Nat.repr idx, { assertion := a, weight := 1, final := none })
        :: computeAInitFrom (idx + 1) rest

/-- Stage 2, `compute_A_init`: id `f"A{idx}"` and weight `1.0` per claim. -/
def compute_A_init (assertions : List Assertion) : List (String × AssumptionRecord) :=
  computeAInitFrom 0 assertions

/-- The attack edges emitted for one ordered pair `(i, j)` with `i < j`:
the nested `if`/`elif` in the inner loop of `detect_attacks`. -/
def pairAttacks (idI : String) (aI : Assertion) (idJ : String) (aJ : Assertion) : List Attack :=
  if aI.subject = aJ.subject ∧ aI.verb = aJ.verb then
    if aI.negated ≠ aJ.negated then
      [⟨idI, idJ, 1⟩, ⟨idJ, idI, 1⟩]
    else []
  else if aI.subject = aJ.subject then
    [⟨idI, idJ, mkRat 1 2⟩, ⟨idJ, idI, mkRat 1 2⟩]
  else []

/-- Stage 3, `detect_attacks`: a single pass over all `i < j` index pairs of
the assumption list, in order, concatenating the edges of each pair. -/
def detect_attacks : List (String × AssumptionRecord) → List Attack
  | [] => []
  | (idI, rI) :: rest =>
      (rest.map fun p => pairAttacks idI rI.assertion p.1 p.2.assertion).flatten
        ++ detect_attacks rest

/-- Python's builtin `min` on two numbers (first argument on ties). -/
def qmin (a b : ℚ) : ℚ := if a ≤ b then a else b

/-- Python's builtin `max` on two numbers (first argument on ties). -/
def qmax (a b : ℚ) : ℚ := if b ≤ a then a else b

/-- Python's builtin `abs`. -/
def qabs (x : ℚ) : ℚ := if x < 0 then -x else x

/-- The t-norm dispatcher `_t_norm`.  Note the source has no error branch:
every mode other than `"product"` and `"lukasiewicz"` takes the trailing
`min` default. -/
def _t_norm (a b : ℚ) (mode : String) : ℚ :=
  if mode = "product" then a * b
  else if mode = "lukasiewicz" then qmax 0 (a + b - 1)
  else qmin a b

/-- The comparison tolerance `1e-6` of the convergence test. -/
def tol : ℚ := mkRat 1 1000000

/-- The defensive clamp `max(0.0, min(1.0, x))` applied after the t-norm. -/
def clamp01 (x : ℚ) : ℚ := qmax 0 (qmin 1 x)

/-- Value-table lookup `values[k]`: first entry with the given key (keys are
unique in a Python dict; `0` is returned only for a key that is absent,
which the pipeline never does). -/
def vlookup : List (String × ℚ) → String → ℚ
  | [], _ => 0
  | (k, v) :: rest, key => if k = key then v else vlookup rest key

/-- Value-table assignment `values[key] = newVal` on an existing key:
rewrites the entries holding `key` in place, preserving order. -/
def vupdate (l : List (String × ℚ)) (key : String) (newVal : ℚ) : List (String × ℚ) :=
  l.map fun p => if p.1 = key then (key, newVal) else p

/-- The body of the inner `for atk in attacks` loop of `fls_algorithm`:
one attack application, returning the new table and whether the update
was accepted (`abs(adjusted - dst_val) > 1e-6`). -/
def applyAttack (mode : String) (values : List (String × ℚ)) (atk : Attack) :
    List (String × ℚ) × Bool :=
  let src_val := vlookup values atk.src
  let dst_val := vlookup values atk.dst
  let adjusted := clamp01 (_t_norm dst_val (1 - atk.strength * src_val) mode)
  if tol < qabs (adjusted - dst_val) then (vupdate values atk.dst adjusted, true)
  else (values, false)

/-- One full sweep over the attack sequence, returning the new table and the
`changed` flag accumulated across the sweep. -/
def sweepGo (mode : String) : List Attack → List (String × ℚ) → List (String × ℚ) × Bool
  | [], values => (values, false)
  | atk :: rest, values =>
      let step := applyAttack mode values atk
      let next := sweepGo mode rest step.1
      (next.1, step.2 || next.2)

/-- The `while changed` loop of `fls_algorithm`, with explicit fuel: it stops
as soon as a sweep reports no change.  The source loop is unbounded; the
termination theorems below show the exit condition is reached within
`flsFuel` under the boundedness invariants. -/
def flsLoop (mode : String) (attacks : List Attack) : Nat → List (String × ℚ) → List (String × ℚ)
  | 0, values => values
  | fuel + 1, values =>
      let swept := sweepGo mode attacks values
      if swept.2 then flsLoop mode attacks fuel swept.1 else swept.1

/-- Fuel sufficient for the loop to reach quiescence: each changing sweep
lowers the value sum by more than `1e-6` and the sum starts at most at the
number of assumptions. -/
def flsFuel (a_init : List (String × AssumptionRecord)) : Nat :=
  a_init.length * 1000000 + 1

/-- The value table computed by the engine: initialised from the weights,
then swept to quiescence. -/
def flsValues (a_init : List (String × AssumptionRecord)) (attacks : List Attack)
    (mode : String) : List (String × ℚ) :=
  flsLoop mode attacks (flsFuel a_init) (a_init.map fun p => (p.1, p.2.weight))

/-- Stage 4, `fls_algorithm`: run the loop, then write `final` into every
record of the mapping it was handed (`a_init[k]["final"] = values[k]`) and
return that same mutated mapping. -/
def fls_algorithm (a_init : List (String × AssumptionRecord)) (attacks : List Attack)
    (mode : String) : List (String × AssumptionRecord) :=
  let values := flsValues a_init attacks mode
  a_init.map fun p => (p.1, { p.2 with final := some (vlookup values p.1) })

/-- The pipeline `analyze_text` (with stage 1 already performed by the
external NLP collaborator).  `fls_algorithm` mutates the dictionary
`a_init` in place and returns it, so the bundle stores the one mutated
mapping under both `"A_init"` and `"A_final"`. -/
def analyze_text (assertions : List Assertion) (tnorm : String) : AnalysisResult :=
  let a_init := compute_A_init assertions
  let attacks := detect_attacks a_init
  let a_final := fls_algorithm a_init attacks tnorm
  { assertions := assertions, A_init := a_final, attacks := attacks, A_final := a_final }

/-! ### Predicates used by the stated properties -/

/-- Boundedness of a value table: every stored value lies in `[0, 1]`. -/
abbrev Vb (values : List (String × ℚ)) : Prop :=
  ∀ p ∈ values, 0 ≤ p.2 ∧ p.2 ≤ 1

/-- Every attack strength lies in `[0, 1]`. -/
abbrev strengthsOk (attacks : List Attack) : Prop :=
  ∀ a ∈ attacks, 0 ≤ a.strength ∧ a.strength ≤ 1

/-- Every record weight lies in `[0, 1]`. -/
abbrev weightsOk (a_init : List (String × AssumptionRecord)) : Prop :=
  ∀ p ∈ a_init, 0 ≤ p.2.weight ∧ p.2.weight ≤ 1

/-- The keys of an association list. -/
abbrev keysOf (l : List (String × ℚ)) : List String := l.map Prod.fst

/-- The sum of the values of a table (the termination measure). -/
def sumV (values : List (String × ℚ)) : ℚ := (values.map Prod.snd).sum

/-- A table is quiescent when one further full sweep reports no change:
this is exactly the exit condition of the `while changed` loop. -/
abbrev quiescent (mode : String) (attacks : List Attack) (values : List (String × ℚ)) : Prop :=
  (sweepGo mode attacks values).2 = false

/-! ### Specification-side definitions (for refinement comparisons) -/

/-- Modelled from the spec, §4.2 as amended: the rule for one pair written as
three flat, mutually exclusive cases — a strong pair iff subjects and verbs
agree and negations differ, a weak pair iff subjects agree and verbs
differ, and no edge otherwise (in particular none for an identical
subject–verb pair without a negation conflict). -/
def pairRuleSpec (idI : String) (aI : Assertion) (idJ : String) (aJ : Assertion) : List Attack :=
  if aI.subject = aJ.subject ∧ aI.verb = aJ.verb ∧ aI.negated ≠ aJ.negated then
    [⟨idI, idJ, 1⟩, ⟨idJ, idI, 1⟩]
  else if aI.subject = aJ.subject ∧ aI.verb ≠ aJ.verb then
    [⟨idI, idJ, mkRat 1 2⟩, ⟨idJ, idI, mkRat 1 2⟩]
  else []

/-- The detector described by the amended spec: the same single pass over all
`i < j` pairs in assumption-set order, emitting `pairRuleSpec` per pair. -/
def detectAttacksSpec : List (String × AssumptionRecord) → List Attack
  | [] => []
  | (idI, rI) :: rest =>
      (rest.map fun p => pairRuleSpec idI rI.assertion p.1 p.2.assertion).flatten
        ++ detectAttacksSpec rest

/-! ### Concrete scenario inputs -/

/-- Scenario claim `{subject: dog, verb: bark, object: null, negated: false}`. -/
def dogBark : Assertion := ⟨"dog", "bark", none, false⟩

/-- Scenario claim `{subject: dog, verb: bark, object: null, negated: true}`. -/
def dogBarkNeg : Assertion := ⟨"dog", "bark", none, true⟩

/-- Scenario claim `{subject: dog, verb: run, object: null, negated: false}`. -/
def dogRun : Assertion := ⟨"dog", "run", none, false⟩

/-- The assumption set of scenario 1 (contradiction). -/
def sc1Init : List (String × AssumptionRecord) := compute_A_init [dogBark, dogBarkNeg]

/-- The attack sequence of scenario 1. -/
def sc1Atks : List Attack := detect_attacks sc1Init

/-! ### Decimal representation of ids

`compute_A_init` builds ids with Python's `f"A{idx}"`; to show ids are
pairwise distinct we prove `Nat.repr` injective via an explicit decimal
digit-character list and a decoding function. -/

/-- The big-endian list of decimal digit characters of `n` (the characters
`Nat.repr` produces). -/
def decChars (n : Nat) : List Char :=
  if n < 10 then [Nat.digitChar n]
  else decChars (n / 10) ++ [Nat.digitChar (n % 10)]
termination_by n
decreasing_by exact Nat.div_lt_self (by omega) (by omega)

/-- Decode a list of decimal digit characters back to the number. -/
def decodeChars (l : List Char) : Nat :=
  l.foldl (fun acc c => 10 * acc + (c.toNat - 48)) 0

/-! ### Elementary facts about the numeric helpers -/

theorem qmin_eq (a b : ℚ) : qmin a b = min a b := by
  rw [qmin, min_def]

theorem qmax_eq (a b : ℚ) : qmax a b = max a b := by
  rw [qmax]
  rcases le_total b a with h | h
  · rw [if_pos h, max_eq_left h]
  · rcases eq_or_lt_of_le h with rfl | hlt
    · simp
    · rw [if_neg (not_le.mpr hlt), max_eq_right h]

theorem qabs_eq (x : ℚ) : qabs x = |x| := by
  rw [qabs]
  rcases lt_or_le x 0 with h | h
  · rw [if_pos h, abs_of_neg h]
  · rw [if_neg (not_lt.mpr h), abs_of_nonneg h]

theorem tol_eq : tol = 1 / 1000000 := by
  rw [tol, Rat.mkRat_eq_div]
  norm_num

theorem tol_pos : 0 < tol := by
  rw [tol_eq]
  norm_num

theorem half_mem_unit : 0 ≤ mkRat 1 2 ∧ mkRat 1 2 ≤ 1 := by
  rw [Rat.mkRat_eq_div]
  norm_num

theorem clamp01_bounds (x : ℚ) : 0 ≤ clamp01 x ∧ clamp01 x ≤ 1 := by
  rw [clamp01, qmax_eq, qmin_eq]
  exact ⟨le_max_left 0 _, max_le (by norm_num) (min_le_left 1 x)⟩

theorem clamp01_le_of_le (x a : ℚ) (h0 : 0 ≤ a) (hx : x ≤ a) : clamp01 x ≤ a := by
  rw [clamp01, qmax_eq, qmin_eq]
  exact max_le h0 (le_trans (min_le_right 1 x) hx)

theorem t_norm_le_left (a b : ℚ) (mode : String)
    (ha : 0 ≤ a) (hb1 : b ≤ 1) : _t_norm a b mode ≤ a := by
  rw [_t_norm]
  split_ifs
  · calc a * b ≤ a * 1 := mul_le_mul_of_nonneg_left hb1 ha
    _ = a := mul_one a
  · rw [qmax_eq]
    exact max_le ha (by linarith)
  · rw [qmin_eq]
    exact min_le_left a b

/-! ### Lookup and update on the value table -/

theorem vlookup_bounds (v : List (String × ℚ)) (hv : Vb v) (k : String) :
    0 ≤ vlookup v k ∧ vlookup v k ≤ 1 := by
  induction v with
  | nil => simp [vlookup]
  | cons p rest ih =>
    obtain ⟨k', x⟩ := p
    rw [vlookup]
    split_ifs
    · exact hv (k', x) (List.mem_cons_self _ _)
    · exact ih fun q hq => hv q (List.mem_cons_of_mem _ hq)

theorem vlookup_not_mem (v : List (String × ℚ)) (k : String) (h : k ∉ keysOf v) :
    vlookup v k = 0 := by
  induction v with
  | nil => rfl
  | cons p rest ih =>
    obtain ⟨k', x⟩ := p
    rw [keysOf, List.map_cons] at h
    simp only [List.mem_cons, not_or] at h
    rw [vlookup, if_neg fun he => h.1 he.symm]
    exact ih h.2

theorem keysOf_vupdate (l : List (String × ℚ)) (key : String) (a : ℚ) :
    keysOf (vupdate l key a) = keysOf l := by
  rw [keysOf, keysOf, vupdate, List.map_map]
  apply List.map_congr_left
  intro p _
  by_cases h : p.1 = key
  · simp [h]
  · simp [h]

theorem Vb_vupdate (l : List (String × ℚ)) (key : String) (a : ℚ)
    (hv : Vb l) (ha : 0 ≤ a ∧ a ≤ 1) : Vb (vupdate l key a) := by
  intro p hp
  rcases List.mem_map.1 hp with ⟨q, hq, rfl⟩
  by_cases h : q.1 = key
  · simpa [h] using ha
  · simpa [h] using hv q hq

theorem vlookup_vupdate_ne (l : List (String × ℚ)) (key : String) (a : ℚ) (k : String)
    (h : key ≠ k) : vlookup (vupdate l key a) k = vlookup l k := by
  induction l with
  | nil => rfl
  | cons p rest ih =>
    obtain ⟨k', x⟩ := p
    by_cases hk : k' = key
    · subst hk
      rw [vupdate, List.map_cons, if_pos rfl, vlookup, if_neg h, vlookup, if_neg h]
      exact ih
    · rw [vupdate, List.map_cons, if_neg hk, vlookup, vlookup]
      split_ifs
      · rfl
      · exact ih

theorem vlookup_vupdate_self (l : List (String × ℚ)) (key : String) (a : ℚ)
    (hmem : key ∈ keysOf l) : vlookup (vupdate l key a) key = a := by
  induction l with
  | nil => cases hmem
  | cons p rest ih =>
    obtain ⟨k', x⟩ := p
    by_cases hk : k' = key
    · rw [vupdate, List.map_cons, if_pos hk, vlookup, if_pos rfl]
    · rw [vupdate, List.map_cons, if_neg hk, vlookup, if_neg hk]
      refine ih ?_
      rcases List.mem_map.1 hmem with ⟨q, hq, hfst⟩
      rcases List.mem_cons.1 hq with rfl | hq
      · exact absurd hfst hk
      · exact hfst ▸ List.mem_map_of_mem Prod.fst hq

theorem vupdate_not_mem (l : List (String × ℚ)) (key : String) (a : ℚ)
    (h : key ∉ keysOf l) : vupdate l key a = l := by
  induction l with
  | nil => rfl
  | cons p rest ih =>
    rw [keysOf, List.map_cons] at h
    simp only [List.mem_cons, not_or] at h
    rw [vupdate, List.map_cons, if_neg fun he => h.1 he.symm]
    rw [show List.map (fun q => if q.1 = key then (key, a) else q) rest = vupdate rest key a from rfl]
    rw [ih h.2]

/-! ### The sum of the table, used as termination measure -/

theorem sumV_nonneg (v : List (String × ℚ)) (hv : Vb v) : 0 ≤ sumV v := by
  induction v with
  | nil => simp [sumV]
  | cons p rest ih =>
    have hp := hv p (List.mem_cons_self _ _)
    have hr := ih fun q hq => hv q (List.mem_cons_of_mem _ hq)
    rw [sumV, List.map_cons, List.sum_cons]
    rw [sumV] at hr
    linarith [hp.1]

theorem sumV_le_length (v : List (String × ℚ)) (hv : Vb v) : sumV v ≤ v.length := by
  induction v with
  | nil => simp [sumV]
  | cons p rest ih =>
    have hp := hv p (List.mem_cons_self _ _)
    have hr := ih fun q hq => hv q (List.mem_cons_of_mem _ hq)
    rw [sumV, List.map_cons, List.sum_cons, List.length_cons]
    rw [sumV] at hr
    push_cast
    linarith [hp.2]

theorem sumV_vupdate (l : List (String × ℚ)) (key : String) (a : ℚ)
    (hnd : (keysOf l).Nodup) (hmem : key ∈ keysOf l) :
    sumV (vupdate l key a) = sumV l - vlookup l key + a := by
  induction l with
  | nil => cases hmem
  | cons p rest ih =>
    obtain ⟨k', x⟩ := p
    rw [keysOf, List.map_cons, List.nodup_cons] at hnd
    by_cases hk : k' = key
    · subst hk
      rw [vupdate, List.map_cons, if_pos rfl]
      rw [show List.map (fun q => if q.1 = k' then (k', a) else q) rest = vupdate rest k' a from rfl]
      rw [vupdate_not_mem rest k' a hnd.1]
      rw [sumV, List.map_cons, List.sum_cons, sumV, List.map_cons, List.sum_cons,
        vlookup, if_pos rfl]
      ring
    · have hmem' : key ∈ keysOf rest := by
        rcases List.mem_map.1 hmem with ⟨q, hq, hfst⟩
        rcases List.mem_cons.1 hq with rfl | hq
        · exact absurd hfst hk
        · exact hfst ▸ List.mem_map_of_mem Prod.fst hq
      rw [vupdate, List.map_cons, if_neg hk]
      rw [show List.map (fun q => if q.1 = key then (key, a) else q) rest = vupdate rest key a from rfl]
      rw [sumV, List.map_cons, List.sum_cons, sumV, List.map_cons, List.sum_cons,
        vlookup, if_neg hk]
      have := ih hnd.2 hmem'
      rw [sumV, sumV] at this
      rw [this]
      ring

/-! ### One attack application -/

theorem applyAttack_eq (mode : String) (v : List (String × ℚ)) (atk : Attack) :
    applyAttack mode v atk =
      if tol < qabs (clamp01 (_t_norm (vlookup v atk.dst)
          (1 - atk.strength * vlookup v atk.src) mode) - vlookup v atk.dst)
      then (vupdate v atk.dst (clamp01 (_t_norm (vlookup v atk.dst)
          (1 - atk.strength * vlookup v atk.src) mode)), true)
      else (v, false) := rfl

theorem adjusted_le (mode : String) (v : List (String × ℚ)) (atk : Attack)
    (hv : Vb v) (hs : 0 ≤ atk.strength ∧ atk.strength ≤ 1) :
    clamp01 (_t_norm (vlookup v atk.dst) (1 - atk.strength * vlookup v atk.src) mode)
      ≤ vlookup v atk.dst := by
  obtain ⟨hd0, hd1⟩ := vlookup_bounds v hv atk.dst
  obtain ⟨hs0, hs1⟩ := vlookup_bounds v hv atk.src
  have hr0 : 0 ≤ 1 - atk.strength * vlookup v atk.src := by nlinarith [hs.1, hs.2]
  have hr1 : 1 - atk.strength * vlookup v atk.src ≤ 1 := by nlinarith [hs.1]
  exact clamp01_le_of_le _ _ hd0
    (t_norm_le_left (vlookup v atk.dst) (1 - atk.strength * vlookup v atk.src) mode hd0 hr1)

theorem applyAttack_keys (mode : String) (v : List (String × ℚ)) (atk : Attack) :
    keysOf (applyAttack mode v atk).1 = keysOf v := by
  rw [applyAttack_eq]
  split_ifs
  · exact keysOf_vupdate v atk.dst _
  · rfl

theorem applyAttack_Vb (mode : String) (v : List (String × ℚ)) (atk : Attack)
    (hv : Vb v) : Vb (applyAttack mode v atk).1 := by
  rw [applyAttack_eq]
  split_ifs
  · exact Vb_vupdate v atk.dst _ hv (clamp01_bounds _)
  · exact hv

theorem applyAttack_le (mode : String) (v : List (String × ℚ)) (atk : Attack)
    (hv : Vb v) (hs : 0 ≤ atk.strength ∧ atk.strength ≤ 1) (k : String) :
    vlookup (applyAttack mode v atk).1 k ≤ vlookup v k := by
  rw [applyAttack_eq]
  split_ifs with h
  · by_cases hk : atk.dst = k
    · subst hk
      by_cases hm : atk.dst ∈ keysOf v
      · rw [vlookup_vupdate_self v atk.dst _ hm]
        exact adjusted_le mode v atk hv hs
      · rw [vupdate_not_mem v atk.dst _ hm]
    · rw [vlookup_vupdate_ne v atk.dst _ k hk]
  · exact le_refl _

theorem applyAttack_changed (mode : String) (v : List (String × ℚ)) (atk : Attack)
    (h : (applyAttack mode v atk).2 = true) :
    (applyAttack mode v atk).1 = vupdate v atk.dst (clamp01 (_t_norm (vlookup v atk.dst)
        (1 - atk.strength * vlookup v atk.src) mode)) ∧
      tol < qabs (clamp01 (_t_norm (vlookup v atk.dst)
        (1 - atk.strength * vlookup v atk.src) mode) - vlookup v atk.dst) := by
  by_cases hc : tol < qabs (clamp01 (_t_norm (vlookup v atk.dst)
      (1 - atk.strength * vlookup v atk.src) mode) - vlookup v atk.dst)
  · exact ⟨by rw [applyAttack_eq, if_pos hc], hc⟩
  · rw [applyAttack_eq, if_neg hc] at h
    simp at h

theorem applyAttack_unchanged (mode : String) (v : List (String × ℚ)) (atk : Attack)
    (h : (applyAttack mode v atk).2 = false) : (applyAttack mode v atk).1 = v := by
  by_cases hc : tol < qabs (clamp01 (_t_norm (vlookup v atk.dst)
      (1 - atk.strength * vlookup v atk.src) mode) - vlookup v atk.dst)
  · rw [applyAttack_eq, if_pos hc] at h
    simp at h
  · rw [applyAttack_eq, if_neg hc]

theorem applyAttack_false_iff (mode : String) (v : List (String × ℚ)) (atk : Attack) :
    (applyAttack mode v atk).2 = false ↔
      qabs (clamp01 (_t_norm (vlookup v atk.dst)
        (1 - atk.strength * vlookup v atk.src) mode) - vlookup v atk.dst) ≤ tol := by
  constructor
  · intro h
    by_cases hc : tol < qabs (clamp01 (_t_norm (vlookup v atk.dst)
        (1 - atk.strength * vlookup v atk.src) mode) - vlookup v atk.dst)
    · rw [applyAttack_eq, if_pos hc] at h
      simp at h
    · exact not_lt.mp hc
  · intro h
    rw [applyAttack_eq, if_neg (not_lt.mpr h)]

theorem applyAttack_changed_sum (mode : String) (v : List (String × ℚ)) (atk : Attack)
    (hv : Vb v) (hs : 0 ≤ atk.strength ∧ atk.strength ≤ 1)
    (hnd : (keysOf v).Nodup) (h : (applyAttack mode v atk).2 = true) :
    sumV (applyAttack mode v atk).1 + tol < sumV v := by
  obtain ⟨hfst, hc⟩ := applyAttack_changed mode v atk h
  have hle := adjusted_le mode v atk hv hs
  have habs : qabs (clamp01 (_t_norm (vlookup v atk.dst)
      (1 - atk.strength * vlookup v atk.src) mode) - vlookup v atk.dst)
      = vlookup v atk.dst - clamp01 (_t_norm (vlookup v atk.dst)
        (1 - atk.strength * vlookup v atk.src) mode) := by
    rw [qabs_eq, abs_of_nonpos (by linarith)]
    ring
  rw [habs] at hc
  have hmem : atk.dst ∈ keysOf v := by
    by_contra hnm
    have hz := vlookup_not_mem v atk.dst hnm
    have h0 := (clamp01_bounds (_t_norm (vlookup v atk.dst)
      (1 - atk.strength * vlookup v atk.src) mode)).1
    have := tol_pos
    rw [hz] at hc hle h0
    linarith
  rw [hfst, sumV_vupdate v atk.dst _ hnd hmem]
  linarith

theorem applyAttack_sum_le (mode : String) (v : List (String × ℚ)) (atk : Attack)
    (hv : Vb v) (hs : 0 ≤ atk.strength ∧ atk.strength ≤ 1)
    (hnd : (keysOf v).Nodup) : sumV (applyAttack mode v atk).1 ≤ sumV v := by
  cases hch : (applyAttack mode v atk).2 with
  | false => rw [applyAttack_unchanged mode v atk hch]
  | true =>
    have := applyAttack_changed_sum mode v atk hv hs hnd hch
    have := tol_pos
    linarith

/-! ### One full sweep -/

theorem sweepGo_nil (mode : String) (v : List (String × ℚ)) :
    sweepGo mode [] v = (v, false) := rfl

theorem sweepGo_cons (mode : String) (atk : Attack) (rest : List Attack)
    (v : List (String × ℚ)) :
    sweepGo mode (atk :: rest) v =
      ((sweepGo mode rest (applyAttack mode v atk).1).1,
       (applyAttack mode v atk).2 || (sweepGo mode rest (applyAttack mode v atk).1).2) := rfl

theorem sweep_keys (mode : String) (atks : List Attack) (v : List (String × ℚ)) :
    keysOf (sweepGo mode atks v).1 = keysOf v := by
  induction atks generalizing v with
  | nil => rfl
  | cons atk rest ih =>
    rw [sweepGo_cons]
    exact (ih _).trans (applyAttack_keys mode v atk)

theorem sweep_Vb (mode : String) (atks : List Attack) (v : List (String × ℚ))
    (hv : Vb v) : Vb (sweepGo mode atks v).1 := by
  induction atks generalizing v with
  | nil => exact hv
  | cons atk rest ih =>
    rw [sweepGo_cons]
    exact ih _ (applyAttack_Vb mode v atk hv)

theorem sweep_le (mode : String) (atks : List Attack) (v : List (String × ℚ))
    (hv : Vb v) (hs : strengthsOk atks) (k : String) :
    vlookup (sweepGo mode atks v).1 k ≤ vlookup v k := by
  induction atks generalizing v with
  | nil => exact le_refl _
  | cons atk rest ih =>
    rw [sweepGo_cons]
    refine le_trans (ih _ (applyAttack_Vb mode v atk hv)
      (fun a ha => hs a (List.mem_cons_of_mem _ ha))) ?_
    exact applyAttack_le mode v atk hv (hs atk (List.mem_cons_self _ _)) k

theorem sweep_sum_le (mode : String) (atks : List Attack) (v : List (String × ℚ))
    (hv : Vb v) (hs : strengthsOk atks) (hnd : (keysOf v).Nodup) :
    sumV (sweepGo mode atks v).1 ≤ sumV v := by
  induction atks generalizing v with
  | nil => exact le_refl _
  | cons atk rest ih =>
    rw [sweepGo_cons]
    refine le_trans (ih _ (applyAttack_Vb mode v atk hv)
      (fun a ha => hs a (List.mem_cons_of_mem _ ha))
      ((applyAttack_keys mode v atk).symm ▸ hnd)) ?_
    exact applyAttack_sum_le mode v atk hv (hs atk (List.mem_cons_self _ _)) hnd

theorem sweep_changed_sum (mode : String) (atks : List Attack) (v : List (String × ℚ))
    (hv : Vb v) (hs : strengthsOk atks) (hnd : (keysOf v).Nodup)
    (h : (sweepGo mode atks v).2 = true) :
    sumV (sweepGo mode atks v).1 + tol < sumV v := by
  induction atks generalizing v with
  | nil => simp [sweepGo_nil] at h
  | cons atk rest ih =>
    rw [sweepGo_cons] at h ⊢
    have hsh := hs atk (List.mem_cons_self _ _)
    have hst : strengthsOk rest := fun a ha => hs a (List.mem_cons_of_mem _ ha)
    have hv1 : Vb (applyAttack mode v atk).1 := applyAttack_Vb mode v atk hv
    have hnd1 : (keysOf (applyAttack mode v atk).1).Nodup :=
      (applyAttack_keys mode v atk).symm ▸ hnd
    rcases Bool.or_eq_true_iff.1 h with hc | hc
    · have h1 := applyAttack_changed_sum mode v atk hv hsh hnd hc
      have h2 := sweep_sum_le mode rest _ hv1 hst hnd1
      linarith
    · have h1 := ih _ hv1 hst hnd1 hc
      have h2 := applyAttack_sum_le mode v atk hv hsh hnd
      linarith

theorem sweep_unchanged (mode : String) (atks : List Attack) (v : List (String × ℚ))
    (h : (sweepGo mode atks v).2 = false) : (sweepGo mode atks v).1 = v := by
  induction atks generalizing v with
  | nil => rfl
  | cons atk rest ih =>
    rw [sweepGo_cons] at h ⊢
    rcases Bool.or_eq_false_iff.1 h with ⟨h1, h2⟩
    rw [applyAttack_unchanged mode v atk h1] at h2 ⊢
    exact ih v h2

theorem sweep_false_edges (mode : String) (atks : List Attack) (v : List (String × ℚ))
    (h : (sweepGo mode atks v).2 = false) :
    ∀ atk ∈ atks, (applyAttack mode v atk).2 = false := by
  induction atks generalizing v with
  | nil => intro atk hm; cases hm
  | cons a rest ih =>
    rw [sweepGo_cons] at h
    rcases Bool.or_eq_false_iff.1 h with ⟨h1, h2⟩
    intro atk hm
    rcases List.mem_cons.1 hm with rfl | hm
    · exact h1
    · rw [applyAttack_unchanged mode v a h1] at h2
      exact ih v h2 atk hm

/-! ### The convergence loop -/

theorem flsLoop_zero (mode : String) (atks : List Attack) (v : List (String × ℚ)) :
    flsLoop mode atks 0 v = v := rfl

theorem flsLoop_succ (mode : String) (atks : List Attack) (fuel : Nat)
    (v : List (String × ℚ)) :
    flsLoop mode atks (fuel + 1) v =
      if (sweepGo mode atks v).2 then flsLoop mode atks fuel (sweepGo mode atks v).1
      else (sweepGo mode atks v).1 := rfl

theorem flsLoop_Vb (mode : String) (atks : List Attack) (fuel : Nat)
    (v : List (String × ℚ)) (hv : Vb v) : Vb (flsLoop mode atks fuel v) := by
  induction fuel generalizing v with
  | zero => exact hv
  | succ f ih =>
    rw [flsLoop_succ]
    split_ifs
    · exact ih _ (sweep_Vb mode atks v hv)
    · exact sweep_Vb mode atks v hv

theorem flsLoop_keys (mode : String) (atks : List Attack) (fuel : Nat)
    (v : List (String × ℚ)) : keysOf (flsLoop mode atks fuel v) = keysOf v := by
  induction fuel generalizing v with
  | zero => rfl
  | succ f ih =>
    rw [flsLoop_succ]
    split_ifs
    · exact (ih _).trans (sweep_keys mode atks v)
    · exact sweep_keys mode atks v

theorem flsLoop_le (mode : String) (atks : List Attack) (fuel : Nat)
    (v : List (String × ℚ)) (hv : Vb v) (hs : strengthsOk atks) (k : String) :
    vlookup (flsLoop mode atks fuel v) k ≤ vlookup v k := by
  induction fuel generalizing v with
  | zero => exact le_refl _
  | succ f ih =>
    rw [flsLoop_succ]
    split_ifs
    · exact le_trans (ih _ (sweep_Vb mode atks v hv)) (sweep_le mode atks v hv hs k)
    · exact sweep_le mode atks v hv hs k

theorem flsLoop_quiescent (mode : String) (atks : List Attack) (fuel : Nat)
    (v : List (String × ℚ)) (hv : Vb v) (hs : strengthsOk atks)
    (hnd : (keysOf v).Nodup) (hsum : sumV v < fuel * tol) :
    quiescent mode atks (flsLoop mode atks fuel v) := by
  induction fuel generalizing v with
  | zero =>
    have := sumV_nonneg v hv
    push_cast at hsum
    linarith
  | succ f ih =>
    rw [flsLoop_succ]
    split_ifs with hch
    · refine ih _ (sweep_Vb mode atks v hv) ((sweep_keys mode atks v).symm ▸ hnd) ?_
      have hdec := sweep_changed_sum mode atks v hv hs hnd hch
      push_cast at hsum ⊢
      linarith
    · have hb : (sweepGo mode atks v).2 = false := by
        rcases Bool.eq_false_or_eq_true (sweepGo mode atks v).2 with h | h
        · exact absurd h hch
        · exact h
      rw [sweep_unchanged mode atks v hb]
      exact hb

theorem flsLoop_fuel_add (mode : String) (atks : List Attack) (fuel extra : Nat)
    (v : List (String × ℚ)) (hv : Vb v) (hs : strengthsOk atks)
    (hnd : (keysOf v).Nodup) (hsum : sumV v < fuel * tol) :
    flsLoop mode atks (fuel + extra) v = flsLoop mode atks fuel v := by
  induction fuel generalizing v with
  | zero =>
    have := sumV_nonneg v hv
    push_cast at hsum
    linarith
  | succ f ih =>
    have hshift : f + 1 + extra = (f + extra) + 1 := by omega
    rw [hshift, flsLoop_succ, flsLoop_succ]
    split_ifs with hch
    · refine ih _ (sweep_Vb mode atks v hv) ((sweep_keys mode atks v).symm ▸ hnd) ?_
      have hdec := sweep_changed_sum mode atks v hv hs hnd hch
      push_cast at hsum ⊢
      linarith
    · rfl

theorem flsLoop_fix (mode : String) (atks : List Attack) (fuel : Nat)
    (v : List (String × ℚ)) (h : quiescent mode atks v) :
    flsLoop mode atks fuel v = v := by
  induction fuel with
  | zero => rfl
  | succ f ih =>
    rw [flsLoop_succ, h]
    simp only [Bool.false_eq_true, if_false]
    exact sweep_unchanged mode atks v h

theorem flsLoop_step (mode : String) (atks : List Attack) (fuel : Nat)
    (v : List (String × ℚ)) (h : (sweepGo mode atks v).2 = true) :
    flsLoop mode atks (fuel + 1) v = flsLoop mode atks fuel (sweepGo mode atks v).1 := by
  rw [flsLoop_succ, h]
  simp

/-! ### The engine on an assumption mapping -/

theorem initial_values_Vb (a_init : List (String × AssumptionRecord)) (hw : weightsOk a_init) :
    Vb (a_init.map fun p => (p.1, p.2.weight)) := by
  intro p hp
  rcases List.mem_map.1 hp with ⟨q, hq, rfl⟩
  exact hw q hq

theorem initial_values_keys (a_init : List (String × AssumptionRecord)) :
    keysOf (a_init.map fun p => (p.1, p.2.weight)) = a_init.map Prod.fst := by
  rw [keysOf, List.map_map]
  rfl

theorem vlookup_initial (a_init : List (String × AssumptionRecord))
    (hnd : (a_init.map Prod.fst).Nodup) (p : String × AssumptionRecord) (hp : p ∈ a_init) :
    vlookup (a_init.map fun q => (q.1, q.2.weight)) p.1 = p.2.weight := by
  induction a_init with
  | nil => cases hp
  | cons q rest ih =>
    rw [List.map_cons, List.nodup_cons] at hnd
    rcases List.mem_cons.1 hp with rfl | hp
    · rw [List.map_cons, vlookup, if_pos rfl]
    · have hne : q.1 ≠ p.1 := fun he => hnd.1 (he ▸ List.mem_map_of_mem Prod.fst hp)
      rw [List.map_cons, vlookup, if_neg hne]
      exact ih hnd.2 hp

theorem flsValues_quiescent (a_init : List (String × AssumptionRecord))
    (atks : List Attack) (mode : String) (hw : weightsOk a_init)
    (hs : strengthsOk atks) (hnd : (a_init.map Prod.fst).Nodup) :
    quiescent mode atks (flsValues a_init atks mode) := by
  rw [flsValues]
  have hv := initial_values_Vb a_init hw
  refine flsLoop_quiescent mode atks (flsFuel a_init) _ hv hs
    ((initial_values_keys a_init).symm ▸ hnd) ?_
  have h1 := sumV_le_length _ hv
  rw [List.length_map] at h1
  rw [flsFuel, tol_eq]
  push_cast
  have he : ((a_init.length : ℚ) * 1000000 + 1) * (1 / 1000000)
      = (a_init.length : ℚ) + 1 / 1000000 := by ring
  rw [he]
  linarith

/-! ### Injectivity of the generated ids -/

theorem digitChar_toNat (d : Nat) (h : d < 10) : (Nat.digitChar d).toNat = 48 + d := by
  interval_cases d <;> rfl

theorem decChars_of_lt (n : Nat) (h : n < 10) : decChars n = [Nat.digitChar n] := by
  rw [decChars, if_pos h]

theorem decChars_of_ge (n : Nat) (h : ¬ n < 10) :
    decChars n = decChars (n / 10) ++ [Nat.digitChar (n % 10)] := by
  conv_lhs => rw [decChars]
  rw [if_neg h]

theorem toDigitsCore_decChars (f : Nat) :
    ∀ (n : Nat) (ds : List Char), n < 10 ^ f →
      Nat.toDigitsCore 10 (f + 1) n ds = decChars n ++ ds := by
  induction f with
  | zero =>
    intro n ds h
    have hn : n = 0 := by simpa using h
    subst hn
    rw [Nat.toDigitsCore]
    norm_num
    rw [decChars_of_lt 0 (by omega)]
    rfl
  | succ f ih =>
    intro n ds h
    rw [Nat.toDigitsCore]
    split_ifs with hdiv
    · have hlt : n < 10 := by omega
      rw [decChars_of_lt n hlt, Nat.mod_eq_of_lt hlt]
      rfl
    · have hge : ¬ n < 10 := by omega
      have hb : n / 10 < 10 ^ f := by
        rw [Nat.div_lt_iff_lt_mul (by omega)]
        calc n < 10 ^ (f + 1) := h
        _ = 10 ^ f * 10 := by rw [pow_succ]
      rw [ih (n / 10) (Nat.digitChar (n % 10) :: ds) hb, decChars_of_ge n hge]
      simp

theorem repr_eq_decChars (n : Nat) : Nat.repr n = (decChars n).asString := by
  rw [Nat.repr, Nat.toDigits,
    toDigitsCore_decChars n n [] (Nat.lt_pow_self (by norm_num) n), List.append_nil]

theorem decodeChars_append_singleton (l : List Char) (c : Char) :
    decodeChars (l ++ [c]) = 10 * decodeChars l + (c.toNat - 48) := by
  rw [decodeChars, decodeChars, List.foldl_append]
  rfl

theorem decodeChars_decChars (n : Nat) : decodeChars (decChars n) = n := by
  induction n using Nat.strong_induction_on with
  | _ n ih =>
    by_cases h : n < 10
    · rw [decChars_of_lt n h, decodeChars]
      simp only [List.foldl_cons, List.foldl_nil]
      rw [digitChar_toNat n h]
      omega
    · rw [decChars_of_ge n h, decodeChars_append_singleton,
        ih (n / 10) (Nat.div_lt_self (by omega) (by omega)),
        digitChar_toNat (n % 10) (by omega)]
      omega

theorem nat_repr_injective (m n : Nat) (h : Nat.repr m = Nat.repr n) : m = n := by
  rw [repr_eq_decChars, repr_eq_decChars] at h
  have hc := List.asString_inj.mp h
  calc m = decodeChars (decChars m) := (decodeChars_decChars m).symm
  _ = decodeChars (decChars n) := by rw [hc]
  _ = n := decodeChars_decChars n

theorem id_injective (m n : Nat) (h : "A" ++ Nat.repr m = "A" ++ Nat.repr n) : m = n := by
  refine nat_repr_injective m n ?_
  have hd : ('A' :: (Nat.repr m).data) = ('A' :: (Nat.repr n).data) := by
    have h1 : ("A" ++ Nat.repr m).data = ("A" ++ Nat.repr n).data := by rw [h]
    simpa [String.data_append] using h1
  have : (Nat.repr m).data = (Nat.repr n).data := by injection hd
  calc Nat.repr m = ⟨(Nat.repr m).data⟩ := rfl
  _ = ⟨(Nat.repr n).data⟩ := by rw [this]
  _ = Nat.repr n := rfl

/-! ### The builder -/

theorem computeAInitFrom_keys (claims : List Assertion) :
    ∀ idx : Nat, (computeAInitFrom idx claims).map Prod.fst
      = (List.range' idx claims.length).map (fun i => "A" ++ Nat.repr i) := by
  induction claims with
  | nil => intro idx; rfl
  | cons a rest ih =>
    intro idx
    rw [computeAInitFrom, List.map_cons, List.length_cons, List.range'_succ, List.map_cons,
      ih (idx + 1)]

theorem compute_A_init_keys (claims : List Assertion) :
    (compute_A_init claims).map Prod.fst
      = (List.range claims.length).map (fun i => "A" ++ Nat.repr i) := by
  rw [compute_A_init, computeAInitFrom_keys claims 0, List.range_eq_range']

theorem compute_A_init_keys_nodup (claims : List Assertion) :
    ((compute_A_init claims).map Prod.fst).Nodup := by
  rw [compute_A_init_keys]
  exact List.Nodup.map (fun m n hm => id_injective m n hm) (List.nodup_range _)

theorem computeAInitFrom_mem (claims : List Assertion) :
    ∀ (idx : Nat) (p : String × AssumptionRecord), p ∈ computeAInitFrom idx claims →
      p.2.weight = 1 ∧ p.2.final = none := by
  induction claims with
  | nil => intro idx p hp; cases hp
  | cons a rest ih =>
    intro idx p hp
    rcases List.mem_cons.1 hp with rfl | hp
    · exact ⟨rfl, rfl⟩
    · exact ih (idx + 1) p hp

theorem compute_A_init_weightsOk (claims : List Assertion) :
    weightsOk (compute_A_init claims) := by
  intro p hp
  rw [(computeAInitFrom_mem claims 0 p hp).1]
  norm_num

/-! ### The detector -/

theorem pairAttacks_strength (idI : String) (aI : Assertion) (idJ : String) (aJ : Assertion)
    (a : Attack) (ha : a ∈ pairAttacks idI aI idJ aJ) :
    a.strength = 1 ∨ a.strength = mkRat 1 2 := by
  rw [pairAttacks] at ha
  split_ifs at ha
  · simp only [List.mem_cons, List.not_mem_nil, or_false] at ha
    rcases ha with rfl | rfl
    · exact Or.inl rfl
    · exact Or.inl rfl
  · cases ha
  · simp only [List.mem_cons, List.not_mem_nil, or_false] at ha
    rcases ha with rfl | rfl
    · exact Or.inr rfl
    · exact Or.inr rfl
  · cases ha

theorem detect_attacks_strengthsOk (l : List (String × AssumptionRecord)) :
    strengthsOk (detect_attacks l) := by
  induction l with
  | nil => intro a ha; cases ha
  | cons p rest ih =>
    intro a ha
    rw [detect_attacks] at ha
    rcases List.mem_append.1 ha with ha | ha
    · rcases List.mem_flatten.1 ha with ⟨lst, hlst, hal⟩
      rcases List.mem_map.1 hlst with ⟨q, _, rfl⟩
      rcases pairAttacks_strength _ _ _ _ a hal with h | h
      · rw [h]; norm_num
      · rw [h]
        exact half_mem_unit
    · exact ih a ha

theorem pairAttacks_eq_spec (idI : String) (aI : Assertion) (idJ : String) (aJ : Assertion) :
    pairAttacks idI aI idJ aJ = pairRuleSpec idI aI idJ aJ := by
  rw [pairAttacks, pairRuleSpec]
  by_cases h1 : aI.subject = aJ.subject
  · by_cases h2 : aI.verb = aJ.verb
    · by_cases h3 : aI.negated = aJ.negated
      · rw [if_pos ⟨h1, h2⟩, if_neg (by simp [h3]), if_neg (by tauto), if_neg (by tauto)]
      · rw [if_pos ⟨h1, h2⟩, if_pos h3, if_pos ⟨h1, h2, h3⟩]
    · rw [if_neg (by tauto), if_pos h1, if_neg (by tauto), if_pos ⟨h1, h2⟩]
  · rw [if_neg (by tauto), if_neg h1, if_neg (by tauto), if_neg (by tauto)]

theorem detect_attacks_eq_spec (l : List (String × AssumptionRecord)) :
    detect_attacks l = detectAttacksSpec l := by
  induction l with
  | nil => rfl
  | cons p rest ih =>
    rw [detect_attacks, detectAttacksSpec, ih]
    congr 1
    congr 1
    apply List.map_congr_left
    intro q _
    exact pairAttacks_eq_spec _ _ _ _

/-! ### Congruence in the t-norm selector -/

theorem t_norm_default (a b : ℚ) (mode : String)
    (hp : mode ≠ "product") (hl : mode ≠ "lukasiewicz") : _t_norm a b mode = qmin a b := by
  rw [_t_norm, if_neg hp, if_neg hl]

theorem t_norm_min_mode (a b : ℚ) : _t_norm a b "min" = qmin a b :=
  t_norm_default a b "min" (by decide) (by decide)

theorem applyAttack_mode_congr (m1 m2 : String) (v : List (String × ℚ)) (atk : Attack)
    (h : ∀ a b : ℚ, _t_norm a b m1 = _t_norm a b m2) :
    applyAttack m1 v atk = applyAttack m2 v atk := by
  rw [applyAttack_eq, applyAttack_eq, h]

theorem sweep_mode_congr (m1 m2 : String) (atks : List Attack) (v : List (String × ℚ))
    (h : ∀ a b : ℚ, _t_norm a b m1 = _t_norm a b m2) :
    sweepGo m1 atks v = sweepGo m2 atks v := by
  induction atks generalizing v with
  | nil => rfl
  | cons atk rest ih =>
    rw [sweepGo_cons, sweepGo_cons, applyAttack_mode_congr m1 m2 v atk h, ih]

theorem flsLoop_mode_congr (m1 m2 : String) (atks : List Attack) (fuel : Nat)
    (v : List (String × ℚ)) (h : ∀ a b : ℚ, _t_norm a b m1 = _t_norm a b m2) :
    flsLoop m1 atks fuel v = flsLoop m2 atks fuel v := by
  induction fuel generalizing v with
  | zero => rfl
  | succ f ih =>
    rw [flsLoop_succ, flsLoop_succ, sweep_mode_congr m1 m2 atks v h]
    split_ifs
    · exact ih _
    · rfl

theorem analyze_text_mode_congr (claims : List Assertion) (mode : String)
    (hp : mode ≠ "product") (hl : mode ≠ "lukasiewicz") :
    analyze_text claims mode = analyze_text claims "min" := by
  have h : ∀ a b : ℚ, _t_norm a b mode = _t_norm a b "min" := by
    intro a b
    rw [t_norm_default a b mode hp hl, t_norm_min_mode]
  rw [analyze_text, analyze_text, fls_algorithm, fls_algorithm, flsValues, flsValues,
    flsLoop_mode_congr mode "min" _ _ _ h]

/-! ### Further shared pipeline facts -/

theorem flsValues_Vb (a_init : List (String × AssumptionRecord)) (atks : List Attack)
    (mode : String) (hw : weightsOk a_init) : Vb (flsValues a_init atks mode) := by
  rw [flsValues]
  exact flsLoop_Vb mode atks _ _ (initial_values_Vb a_init hw)

theorem initial_sum_lt (a_init : List (String × AssumptionRecord)) (hw : weightsOk a_init) :
    sumV (a_init.map fun p => (p.1, p.2.weight)) < (flsFuel a_init : ℚ) * tol := by
  have h1 := sumV_le_length _ (initial_values_Vb a_init hw)
  rw [List.length_map] at h1
  rw [flsFuel, tol_eq]
  push_cast
  have he : ((a_init.length : ℚ) * 1000000 + 1) * (1 / 1000000)
      = (a_init.length : ℚ) + 1 / 1000000 := by ring
  rw [he]
  linarith

theorem mem_analysis_final (claims : List Assertion) (mode : String)
    (p : String × AssumptionRecord) (hp : p ∈ (analyze_text claims mode).A_final) :
    ∃ q ∈ compute_A_init claims,
      p = (q.1, { q.2 with final := some (vlookup (flsValues (compute_A_init claims)
        (detect_attacks (compute_A_init claims)) mode) q.1) }) := by
  have hp' : p ∈ (compute_A_init claims).map (fun q =>
      (q.1, { q.2 with final := some (vlookup (flsValues (compute_A_init claims)
        (detect_attacks (compute_A_init claims)) mode) q.1) })) := hp
  rcases List.mem_map.1 hp' with ⟨q, hq, rfl⟩
  exact ⟨q, hq, rfl⟩

theorem analysis_final_keys (claims : List Assertion) (mode : String) :
    (analyze_text claims mode).A_final.map Prod.fst = (compute_A_init claims).map Prod.fst := by
  have h : (analyze_text claims mode).A_final = (compute_A_init claims).map (fun q =>
      (q.1, { q.2 with final := some (vlookup (flsValues (compute_A_init claims)
        (detect_attacks (compute_A_init claims)) mode) q.1) })) := rfl
  rw [h, List.map_map]
  exact List.map_congr_left fun q _ => rfl

theorem sc1_analysis_min : analyze_text [dogBark, dogBarkNeg] "min"
    = ⟨[dogBark, dogBarkNeg],
       [("A0", ⟨dogBark, 1, some 1⟩), ("A1", ⟨dogBarkNeg, 1, some 0⟩)],
       [⟨"A0", "A1", 1⟩, ⟨"A1", "A0", 1⟩],
       [("A0", ⟨dogBark, 1, some 1⟩), ("A1", ⟨dogBarkNeg, 1, some 0⟩)]⟩ := by
  decide

/-! ### The claims -/

/-- C1, counterexample: on the contradiction scenario
`[{dog, bark, null, false}, {dog, bark, null, true}]` with the `min` t-norm
the final values are `A0 ↦ 1.0` and `A1 ↦ 0.0`, not both `0.0` as claimed:
the engine updates in place, so once `A1` collapses to `0` its attack on
`A0` has no force left. -/
theorem C1_counterexample :
    (analyze_text [dogBark, dogBarkNeg] "min").A_final.map (fun p => (p.1, p.2.final))
      = [("A0", some 1), ("A1", some 0)] ∧
    (analyze_text [dogBark, dogBarkNeg] "min").A_final.map (fun p => p.2.final)
      ≠ [some 0, some 0] := by
  constructor
  · decide
  · decide

/-- C1, amended: the contradiction scenario yields ids `A0`, `A1` with initial
weight `1.0`, the attack sequence `[(A0, A1, 1.0), (A1, A0, 1.0)]` in that
order, and final values `A0 ↦ 1.0`, `A1 ↦ 0.0`. -/
theorem C1_contradiction_scenario : analyze_text [dogBark, dogBarkNeg] "min"
    = ⟨[dogBark, dogBarkNeg],
       [("A0", ⟨dogBark, 1, some 1⟩), ("A1", ⟨dogBarkNeg, 1, some 0⟩)],
       [⟨"A0", "A1", 1⟩, ⟨"A1", "A0", 1⟩],
       [("A0", ⟨dogBark, 1, some 1⟩), ("A1", ⟨dogBarkNeg, 1, some 0⟩)]⟩ :=
  sc1_analysis_min

/-- C2, counterexample: two identical claims (equal subject, verb and
negation) produce no attack edge at all — the weak pair claimed for the
"same verb without a negation conflict" case is never emitted, because that
case falls inside the first `if` branch and never reaches the `elif`. -/
theorem C2_counterexample :
    detect_attacks (compute_A_init [dogBark, dogBark]) = [] ∧
    detect_attacks (compute_A_init [dogBark, dogBark])
      ≠ [⟨"A0", "A1", mkRat 1 2⟩, ⟨"A1", "A0", mkRat 1 2⟩] := by
  constructor
  · decide
  · decide

/-- C2, amended: over every `i < j` pair in assumption-set order the detector
emits a strong pair (strength 1) iff subjects and verbs agree and negations
differ, a weak pair (strength 0.5) iff subjects agree and verbs differ, and
no edge otherwise — in particular none when subject and verb agree without
a negation conflict. -/
theorem C2_detection_rule (a_init : List (String × AssumptionRecord)) :
    detect_attacks a_init = detectAttacksSpec a_init :=
  detect_attacks_eq_spec a_init

/-- C3, counterexample: in the result for one claim the record of the
*initial* mapping already carries `final = 1.0` — the engine writes `final`
into the very mapping it was handed. -/
theorem C3_counterexample :
    (analyze_text [dogBark] "min").A_init.map (fun p => p.2.final) = [some 1] ∧
    (analyze_text [dogBark] "min").A_init.map (fun p => p.2.final) ≠ [none] := by
  constructor
  · decide
  · decide

/-- C3, amended: `fls_algorithm` mutates the mapping passed to it and the
bundle stores that same mutated mapping under both keys, so the initial and
final mappings of the result are identical and every record of the initial
mapping carries a populated `final` field. -/
theorem C3_engine_mutates_initial (claims : List Assertion) (mode : String) :
    (analyze_text claims mode).A_init = (analyze_text claims mode).A_final ∧
    ∀ p ∈ (analyze_text claims mode).A_init, ∃ f, p.2.final = some f := by
  refine ⟨rfl, ?_⟩
  intro p hp
  rcases mem_analysis_final claims mode p hp with ⟨q, _, rfl⟩
  exact ⟨_, rfl⟩

/-- C3, witness at the single-claim input. -/
theorem C3_witness :
    (analyze_text [dogBark] "min").A_init = (analyze_text [dogBark] "min").A_final ∧
    ∃ f, (AssumptionRecord.mk dogBark 1 (some 1)).final = some f :=
  ⟨(C3_engine_mutates_initial [dogBark] "min").1,
   (C3_engine_mutates_initial [dogBark] "min").2 ("A0", ⟨dogBark, 1, some 1⟩) (by decide)⟩

/-- C4, counterexample: the unrecognized selector `"bogus"` is not rejected;
the pipeline silently computes the same (non-trivial) result as with
`"min"`, because `_t_norm` treats every unknown mode as the `min` default
and no component validates the selector. -/
theorem C4_counterexample :
    analyze_text [dogBark, dogBarkNeg] "bogus" = analyze_text [dogBark, dogBarkNeg] "min" ∧
    (analyze_text [dogBark, dogBarkNeg] "bogus").attacks ≠ [] := by
  have h := analyze_text_mode_congr [dogBark, dogBarkNeg] "bogus" (by decide) (by decide)
  refine ⟨h, ?_⟩
  rw [h, sc1_analysis_min]
  decide

/-- C4, amended: every t-norm selector outside `{product, lukasiewicz}`
(hence everything outside the documented set except `min` itself) is
silently treated as `min`: the pipeline computes the `min` result instead
of reporting a configuration error. -/
theorem C4_tnorm_fallback (claims : List Assertion) (mode : String)
    (hp : mode ≠ "product") (hl : mode ≠ "lukasiewicz") :
    analyze_text claims mode = analyze_text claims "min" :=
  analyze_text_mode_congr claims mode hp hl

/-- C4, witness at the selector `"bogus"`. -/
theorem C4_witness :
    ("bogus" : String) ≠ "product" ∧ ("bogus" : String) ≠ "lukasiewicz" ∧
    analyze_text [dogBark] "bogus" = analyze_text [dogBark] "min" :=
  ⟨by decide, by decide, C4_tnorm_fallback [dogBark] "bogus" (by decide) (by decide)⟩

/-- C5: boundedness — every record built by `compute_A_init` has weight in
`[0, 1]`, and after the engine runs every record of the result keeps its
weight in `[0, 1]` and carries a final value in `[0, 1]`. -/
theorem C5_boundedness (claims : List Assertion) (mode : String) :
    (∀ p ∈ compute_A_init claims, 0 ≤ p.2.weight ∧ p.2.weight ≤ 1) ∧
    ∀ p ∈ (analyze_text claims mode).A_final,
      (0 ≤ p.2.weight ∧ p.2.weight ≤ 1) ∧ ∃ f, p.2.final = some f ∧ 0 ≤ f ∧ f ≤ 1 := by
  refine ⟨compute_A_init_weightsOk claims, ?_⟩
  intro p hp
  rcases mem_analysis_final claims mode p hp with ⟨q, hq, rfl⟩
  refine ⟨compute_A_init_weightsOk claims q hq, vlookup _ _, rfl, ?_⟩
  exact vlookup_bounds _ (flsValues_Vb _ _ mode (compute_A_init_weightsOk claims)) q.1

/-- C5, witness at the single-claim input. -/
theorem C5_witness :
    (("A0", (⟨dogBark, 1, some 1⟩ : AssumptionRecord))
        ∈ (analyze_text [dogBark] "min").A_final) ∧
    ((0 ≤ (AssumptionRecord.mk dogBark 1 (some 1)).weight ∧
        (AssumptionRecord.mk dogBark 1 (some 1)).weight ≤ 1) ∧
      ∃ f, (AssumptionRecord.mk dogBark 1 (some 1)).final = some f ∧ 0 ≤ f ∧ f ≤ 1) :=
  ⟨by decide, (C5_boundedness [dogBark] "min").2 ("A0", ⟨dogBark, 1, some 1⟩) (by decide)⟩

/-- C6: uniqueness — the builder assigns position `idx` the id `"A" ++ idx`,
these ids are pairwise distinct, the final mapping carries exactly the same
ids as the initial mapping, and every record of the final mapping holds one
final value. -/
theorem C6_unique_ids (claims : List Assertion) (mode : String) :
    ((compute_A_init claims).map Prod.fst
      = (List.range claims.length).map (fun i => "A" ++ Nat.repr i)) ∧
    ((compute_A_init claims).map Prod.fst).Nodup ∧
    ((analyze_text claims mode).A_final.map Prod.fst = (compute_A_init claims).map Prod.fst) ∧
    ∀ p ∈ (analyze_text claims mode).A_final, ∃ f, p.2.final = some f := by
  refine ⟨compute_A_init_keys claims, compute_A_init_keys_nodup claims,
    analysis_final_keys claims mode, ?_⟩
  intro p hp
  rcases mem_analysis_final claims mode p hp with ⟨q, _, rfl⟩
  exact ⟨_, rfl⟩

/-- C6, witness at the contradiction scenario. -/
theorem C6_witness :
    ((compute_A_init [dogBark, dogBarkNeg]).map Prod.fst
      = (List.range ([dogBark, dogBarkNeg] : List Assertion).length).map
          (fun i => "A" ++ Nat.repr i)) ∧
    ((compute_A_init [dogBark, dogBarkNeg]).map Prod.fst).Nodup ∧
    ((analyze_text [dogBark, dogBarkNeg] "min").A_final.map Prod.fst
      = (compute_A_init [dogBark, dogBarkNeg]).map Prod.fst) ∧
    (("A1", (⟨dogBarkNeg, 1, some 0⟩ : AssumptionRecord))
        ∈ (analyze_text [dogBark, dogBarkNeg] "min").A_final) ∧
    ∃ f, (AssumptionRecord.mk dogBarkNeg 1 (some 0)).final = some f :=
  ⟨(C6_unique_ids [dogBark, dogBarkNeg] "min").1,
   (C6_unique_ids [dogBark, dogBarkNeg] "min").2.1,
   (C6_unique_ids [dogBark, dogBarkNeg] "min").2.2.1,
   by decide,
   (C6_unique_ids [dogBark, dogBarkNeg] "min").2.2.2
     ("A1", ⟨dogBarkNeg, 1, some 0⟩) (by decide)⟩

/-- C7: the value table produced by the engine is a fixed point — for every
attack edge the clamped t-norm update moves the attacked value by at most
the tolerance, and one further full sweep leaves the table unchanged. -/
theorem C7_fixed_point (a_init : List (String × AssumptionRecord)) (attacks : List Attack)
    (mode : String) (hw : weightsOk a_init) (hs : strengthsOk attacks)
    (hnd : (a_init.map Prod.fst).Nodup) :
    (∀ atk ∈ attacks,
      qabs (clamp01 (_t_norm (vlookup (flsValues a_init attacks mode) atk.dst)
          (1 - atk.strength * vlookup (flsValues a_init attacks mode) atk.src) mode)
        - vlookup (flsValues a_init attacks mode) atk.dst) ≤ tol) ∧
    (sweepGo mode attacks (flsValues a_init attacks mode)).1 = flsValues a_init attacks mode := by
  have hq := flsValues_quiescent a_init attacks mode hw hs hnd
  constructor
  · intro atk hm
    exact (applyAttack_false_iff mode _ atk).1 (sweep_false_edges mode attacks _ hq atk hm)
  · exact sweep_unchanged mode attacks _ hq

/-- C7, witness at the contradiction scenario and its first edge. -/
theorem C7_witness :
    weightsOk sc1Init ∧ strengthsOk sc1Atks ∧ (sc1Init.map Prod.fst).Nodup ∧
    (Attack.mk "A0" "A1" 1 ∈ sc1Atks) ∧
    qabs (clamp01 (_t_norm (vlookup (flsValues sc1Init sc1Atks "min") (Attack.mk "A0" "A1" 1).dst)
        (1 - (Attack.mk "A0" "A1" 1).strength
          * vlookup (flsValues sc1Init sc1Atks "min") (Attack.mk "A0" "A1" 1).src) "min")
      - vlookup (flsValues sc1Init sc1Atks "min") (Attack.mk "A0" "A1" 1).dst) ≤ tol :=
  ⟨by decide, by decide, by decide, by decide,
   (C7_fixed_point sc1Init sc1Atks "min" (by decide) (by decide) (by decide)).1
     (Attack.mk "A0" "A1" 1) (by decide)⟩

/-- C8: the empty claim sequence yields a result with all four parts empty,
and any assumption set with fewer than two entries yields an empty attack
sequence. -/
theorem C8_empty_and_small :
    (∀ mode : String, analyze_text [] mode = ⟨[], [], [], []⟩) ∧
    ∀ a_init : List (String × AssumptionRecord),
      a_init.length < 2 → detect_attacks a_init = [] := by
  constructor
  · intro mode
    rfl
  · intro a_init h
    rcases a_init with _ | ⟨p, rest⟩
    · rfl
    · rcases rest with _ | ⟨q, rest'⟩
      · obtain ⟨idI, rI⟩ := p
        rfl
      · exfalso
        simp only [List.length_cons] at h
        omega

/-- C8, witness at a one-record assumption set. -/
theorem C8_witness :
    analyze_text [] "min" = ⟨[], [], [], []⟩ ∧
    ([("A0", (⟨dogBark, 1, none⟩ : AssumptionRecord))].length < 2) ∧
    detect_attacks [("A0", (⟨dogBark, 1, none⟩ : AssumptionRecord))] = [] :=
  ⟨C8_empty_and_small.1 "min", by decide,
   C8_empty_and_small.2 [("A0", ⟨dogBark, 1, none⟩)] (by decide)⟩

/-- C9: termination of the sweep loop — with weights and strengths in
`[0, 1]` and distinct keys the loop reaches its exit condition (a sweep
with no accepted update) within the modelled fuel, and giving the loop any
additional fuel does not change its output. -/
theorem C9_termination (a_init : List (String × AssumptionRecord)) (attacks : List Attack)
    (mode : String) (hw : weightsOk a_init) (hs : strengthsOk attacks)
    (hnd : (a_init.map Prod.fst).Nodup) :
    quiescent mode attacks (flsValues a_init attacks mode) ∧
    ∀ extra : Nat, flsLoop mode attacks (flsFuel a_init + extra)
      (a_init.map fun p => (p.1, p.2.weight)) = flsValues a_init attacks mode := by
  refine ⟨flsValues_quiescent a_init attacks mode hw hs hnd, ?_⟩
  intro extra
  rw [flsValues]
  exact flsLoop_fuel_add mode attacks (flsFuel a_init) extra _
    (initial_values_Vb a_init hw) hs
    ((initial_values_keys a_init).symm ▸ hnd) (initial_sum_lt a_init hw)

/-- C9, witness at the contradiction scenario with 7 units of extra fuel. -/
theorem C9_witness :
    weightsOk sc1Init ∧ strengthsOk sc1Atks ∧ (sc1Init.map Prod.fst).Nodup ∧
    quiescent "min" sc1Atks (flsValues sc1Init sc1Atks "min") ∧
    flsLoop "min" sc1Atks (flsFuel sc1Init + 7) (sc1Init.map fun p => (p.1, p.2.weight))
      = flsValues sc1Init sc1Atks "min" := by
  have h := C9_termination sc1Init sc1Atks "min" (by decide) (by decide) (by decide)
  exact ⟨by decide, by decide, by decide, h.1, h.2 7⟩

/-- C10: monotonicity — a sweep never increases any table entry, and every
final value is at most the corresponding initial weight. -/
theorem C10_nonincreasing (a_init : List (String × AssumptionRecord)) (attacks : List Attack)
    (mode : String) (hw : weightsOk a_init) (hs : strengthsOk attacks)
    (hnd : (a_init.map Prod.fst).Nodup) :
    (∀ v, Vb v → ∀ k, vlookup (sweepGo mode attacks v).1 k ≤ vlookup v k) ∧
    ∀ p ∈ fls_algorithm a_init attacks mode, ∃ f, p.2.final = some f ∧ f ≤ p.2.weight := by
  constructor
  · intro v hv k
    exact sweep_le mode attacks v hv hs k
  · intro p hp
    have hp' : p ∈ a_init.map (fun q =>
        (q.1, { q.2 with final := some (vlookup (flsValues a_init attacks mode) q.1) })) := hp
    rcases List.mem_map.1 hp' with ⟨q, hq, rfl⟩
    refine ⟨vlookup (flsValues a_init attacks mode) q.1, rfl, ?_⟩
    have h1 : vlookup (flsValues a_init attacks mode) q.1
        ≤ vlookup (a_init.map fun r => (r.1, r.2.weight)) q.1 := by
      rw [flsValues]
      exact flsLoop_le mode attacks _ _ (initial_values_Vb a_init hw) hs q.1
    rw [vlookup_initial a_init hnd q hq] at h1
    exact h1

/-- C10, witness at the contradiction scenario. -/
theorem C10_witness :
    weightsOk sc1Init ∧ strengthsOk sc1Atks ∧ (sc1Init.map Prod.fst).Nodup ∧
    Vb [("A0", (1 : ℚ)), ("A1", 1)] ∧
    vlookup (sweepGo "min" sc1Atks [("A0", (1 : ℚ)), ("A1", 1)]).1 "A1"
      ≤ vlookup [("A0", (1 : ℚ)), ("A1", 1)] "A1" ∧
    (("A1", (⟨dogBarkNeg, 1, some 0⟩ : AssumptionRecord))
        ∈ fls_algorithm sc1Init sc1Atks "min") ∧
    ∃ f, (AssumptionRecord.mk dogBarkNeg 1 (some 0)).final = some f ∧
      f ≤ (AssumptionRecord.mk dogBarkNeg 1 (some 0)).weight := by
  have h := C10_nonincreasing sc1Init sc1Atks "min" (by decide) (by decide) (by decide)
  exact ⟨by decide, by decide, by decide, by decide,
    h.1 [("A0", (1 : ℚ)), ("A1", 1)] (by decide) "A1", by decide,
    h.2 ("A1", ⟨dogBarkNeg, 1, some 0⟩) (by decide)⟩

end Argus
